import Mathlib

/-!
Verification development for the dorimori repository: a checkpointed batch
ingestion pipeline (spec §2–§5, modelled from the spec since the backend code
is not in the frontend sources) and the React search frontend
(src/App.js, src/components/FilterMenu.js, src/components/ProductList.js).
-/

namespace DoriMori

/-! ### Frontend: search URL construction (src/App.js `handleSearch`) -/

/-- From src/App.js `handleSearch`: the literal prefix of the search request
URL, up to and including `query=`. -/
def searchUrlBase : String := "http://localhost:8080/api/v1/search?query="

/-- From src/App.js `handleSearch`: the URL template
`http://localhost:8080/api/v1/search?query=${query}${filters ? '&'+filters : ''}`.
JavaScript template interpolation concatenates the raw strings; the empty
string is falsy, so an empty `filters` contributes nothing. -/
def buildSearchUrl (query filters : String) : String :=
  searchUrlBase ++ query ++ (if filters = "" then "" else "&" ++ filters)

/-- From src/App.js `handleFilterChange`: builds the filter query string
`from=${from}&to=${to}&category=${category}` from the callback payload. -/
def handleFilterChange (f t c : String) : String :=
  "from=" ++ f ++ "&to=" ++ t ++ "&category=" ++ c

/-! ### Frontend: FilterMenu state machine (src/components/FilterMenu.js) -/

/-- The controlled state of the FilterMenu component: the two number inputs
and the category select.  Input values are strings in the DOM
(`e.currentTarget.value`). -/
structure FilterMenuState where
  fromPrice : String
  toPrice : String
  category : String
deriving DecidableEq, Repr

/-- From src/components/FilterMenu.js: `useState(0)`, `useState(1000)`,
`useState('')` — rendered into the inputs, the numbers appear as their
decimal strings. -/
def initialFilterMenuState : FilterMenuState :=
  { fromPrice := "0", toPrice := "1000", category := "" }

/-- The `<option>` entries of the category select in FilterMenu.js:
label and `value` attribute. -/
def categoryOptions : List (String × String) :=
  [("All", ""), ("Electronics", "electronics"),
   ("Clothing", "clothing"), ("Books", "books")]

/-- A user interaction with the FilterMenu controls: editing the `from`
price, the `to` price, or selecting a category. -/
inductive FilterEvent where
  | setFrom (v : String)
  | setTo (v : String)
  | setCategory (v : String)
deriving DecidableEq, Repr

/-- From FilterMenu.js `handlePriceChange` / `handleCategoryChange`: each
handler stores the new value in the corresponding `useState` slot. -/
def filterStep (s : FilterMenuState) : FilterEvent → FilterMenuState
  | FilterEvent.setFrom v => { s with fromPrice := v }
  | FilterEvent.setTo v => { s with toPrice := v }
  | FilterEvent.setCategory v => { s with category := v }

/-- The FilterMenu state reached after a sequence of interactions. -/
def filterMenuState (evs : List FilterEvent) : FilterMenuState :=
  evs.foldl filterStep initialFilterMenuState

/-- The argument each FilterMenu handler passes to `onFilterChange`, as the
filter string App stores: every handler calls `onFilterChange` with the new
value of the edited field together with the current values of the others,
which is exactly the updated component state. -/
def filterQuery (s : FilterMenuState) : String :=
  handleFilterChange s.fromPrice s.toPrice s.category

/-- From src/App.js: the `filters` state after a sequence of FilterMenu
interactions.  `useState('')` gives the empty string before any interaction;
afterwards it holds the string built by `handleFilterChange` for the last
interaction, computed from the then-current control values. -/
def appFilters : List FilterEvent → String
  | [] => ""
  | e :: es => filterQuery (filterMenuState (e :: es))

/-! ### Frontend: fetch outcome and rendering (src/App.js, ProductList.js) -/

/-- The display payload of a product, as read by ProductList.js. -/
structure ProductPayload where
  name : String
  images : List String
  current_price : String
  currency : String
  link : String
deriving DecidableEq, Repr

/-- A point of the search response: `product.id` and `product.payload`. -/
structure SearchPoint where
  id : Nat
  payload : ProductPayload
deriving DecidableEq, Repr

/-- The JSON body of a successful search response: `data.points`. -/
structure SearchResponse where
  points : List SearchPoint
deriving DecidableEq, Repr

/-- The possible outcomes of the `fetch` in src/App.js `handleSearch`:
a successful response, a response with `!response.ok` (thrown and caught),
or a thrown network/parse error (caught). -/
inductive FetchResult where
  | success (data : SearchResponse)
  | httpNotOk
  | fetchError
deriving DecidableEq, Repr

/-- The observable effect of one run of src/App.js `handleSearch`:
`setLoading(true)` first, the resulting `products` state, and
`setLoading(false)` in the `finally` block. -/
structure AppRender where
  loadingDuring : Bool
  loadingAfter : Bool
  products : List SearchPoint
deriving DecidableEq, Repr

/-- From src/App.js `handleSearch`: on success `setProducts(data.points)`;
on a not-ok response or a thrown error the catch block runs
`setProducts([])`; `setLoading` brackets the whole body. -/
def handleSearch : FetchResult → AppRender
  | FetchResult.success d =>
      { loadingDuring := true, loadingAfter := false, products := d.points }
  | FetchResult.httpNotOk =>
      { loadingDuring := true, loadingAfter := false, products := [] }
  | FetchResult.fetchError =>
      { loadingDuring := true, loadingAfter := false, products := [] }

/-- One rendered product card in ProductList.js: the React `key`, the link
`href`, the title, the image grid, and the price line
`{payload.current_price} {payload.currency}`. -/
structure ProductCard where
  key : Nat
  href : String
  title : String
  images : List String
  priceText : String
deriving DecidableEq, Repr

/-- From src/components/ProductList.js: how one product is rendered. -/
def renderProduct (p : SearchPoint) : ProductCard :=
  { key := p.id, href := p.payload.link, title := p.payload.name,
    images := p.payload.images,
    priceText := p.payload.current_price ++ " " ++ p.payload.currency }

/-- From src/components/ProductList.js: `products.map(...)` renders the
cards in the order of the list. -/
def renderProductList (products : List SearchPoint) : List ProductCard :=
  products.map renderProduct

/-! ### Query-string parsing (to state what an unencoded query does to the
parameter structure of the request) -/

/-- Split a character list at every occurrence of a separator character. -/
def splitOnChar (c : Char) : List Char → List (List Char)
  | [] => [[]]
  | a :: rest =>
    if a = c then [] :: splitOnChar c rest
    else
      match splitOnChar c rest with
      | [] => [[a]]
      | g :: gs => (a :: g) :: gs

/-- Split a string at every occurrence of a separator character. -/
def splitString (c : Char) (s : String) : List String :=
  (splitOnChar c s.data).map (fun l => String.mk l)

/-- The parameter structure of a query string: split at `&`, then each
parameter at `=`. -/
def queryParams (s : String) : List (List String) :=
  (splitString '&' s).map (fun p => splitString '=' p)

/-! ### Pipeline: data model (modelled from the spec — the backend sources
are not part of the frontend tree) -/

/-- Modelled from the spec: a dataset Record (§3) — a stable unique `id`
plus its payload (the display fields and raw fields, abstracted to one
string). -/
structure Record where
  id : Nat
  payload : String
deriving DecidableEq, Repr

/-- Modelled from the spec: one (id, vector, payload) tuple passed to the
Vector Store Adapter's `upsert` (§4.5). -/
structure UpsertItem where
  id : Nat
  vector : List Int
  payload : String
deriving DecidableEq, Repr

/-- Modelled from the spec: the terminal states of the orchestrator state
machine (§4.6): `DONE` on success, `FAILED` with the failing batch index. -/
inductive Final where
  | DONE : Final
  | FAILED : Nat → Final
deriving DecidableEq, Repr

/-- Modelled from the spec: the Batcher (§4.2), fuel-indexed worker.  The
fuel is an upper bound on the record count; `batches` instantiates it with
the exact length, which suffices for any positive batch size. -/
def batchesGo {α : Type} (B : Nat) : Nat → List α → List (List α)
  | _, [] => []
  | 0, _ :: _ => []
  | fuel + 1, a :: l => ((a :: l).take B) :: batchesGo B fuel ((a :: l).drop B)

/-- Modelled from the spec: the Batcher (§4.2) — pure partitioning of a
record sequence into consecutive groups of `B` records, the final group
possibly shorter, indexed from 0 by list position. -/
def batches {α : Type} (B : Nat) (l : List α) : List (List α) :=
  batchesGo B l.length l

/-- Modelled from the spec: the job configuration and external adapters the
orchestrator consumes — the dataset, the batch size, the Embedding Adapter
(§4.4, `none` = per-record embedding failure), and the Vector Store Adapter
outcome per batch index (§4.5, after the bounded retry policy of §5 has been
exhausted). -/
structure PipelineEnv where
  records : List Record
  batchSize : Nat
  embed : Record → Option (List Int)
  upsertOk : Nat → Bool

/-- Modelled from the spec: `INIT` (§4.6) — `start_index = (checkpoint
value + 1) or 0`. -/
def startIndex : Option Nat → Nat
  | some k => k + 1
  | none => 0

/-- The batches of the environment's dataset. -/
def envBatches (env : PipelineEnv) : List (List Record) :=
  batches env.batchSize env.records

/-- Modelled from the spec: `PROCESSING(i)` (§4.6) — embed the batch,
dropping each record the Embedding Adapter fails on, keeping the remainder
as the (id, vector, payload) tuples to upsert. -/
def itemsOf (e : Record → Option (List Int)) (b : List Record) : List UpsertItem :=
  b.filterMap (fun r => (e r).map (fun v => UpsertItem.mk r.id v r.payload))

/-- Modelled from the spec: the observable trace of one run (§4.6) — the
batch indices sent to the Embedding Adapter, the upsert calls with their
item lists, the checkpoint `commit` calls, the terminal state, and the
final durable checkpoint value. -/
structure Trace where
  embedded : List Nat
  upserts : List (Nat × List UpsertItem)
  commits : List Nat
  final : Final
  checkpoint : Option Nat
deriving DecidableEq, Repr

/-- Modelled from the spec: the `PROCESSING(i) → COMMITTING(i)` loop of the
orchestrator (§4.6) over the remaining batches, starting at batch index `i`
with current durable checkpoint `cp`.  On upsert success the checkpoint is
committed to `i` and the loop advances; on upsert failure (after retries)
the job ends `FAILED i` with the checkpoint untouched; when no batches
remain the job ends `DONE`. -/
def runBatches (e : Record → Option (List Int)) (u : Nat → Bool) :
    List (List Record) → Nat → Option Nat → Trace
  | [], _, cp => ⟨[], [], [], Final.DONE, cp⟩
  | b :: rest, i, cp =>
    if u i then
      ⟨i :: (runBatches e u rest (i + 1) (some i)).embedded,
       (i, itemsOf e b) :: (runBatches e u rest (i + 1) (some i)).upserts,
       i :: (runBatches e u rest (i + 1) (some i)).commits,
       (runBatches e u rest (i + 1) (some i)).final,
       (runBatches e u rest (i + 1) (some i)).checkpoint⟩
    else
      ⟨[i], [(i, itemsOf e b)], [], Final.FAILED i, cp⟩

/-- Modelled from the spec: one run of the pipeline (§4.6) — `INIT` loads
the checkpoint and computes `start_index`, `RESUMING` skips the
already-committed batches, then the processing loop runs to `DONE` or
`FAILED`. -/
def run (env : PipelineEnv) (cp : Option Nat) : Trace :=
  runBatches env.embed env.upsertOk
    ((envBatches env).drop (startIndex cp)) (startIndex cp) cp

/-! ### Sample inputs for witnesses -/

/-- A sample dataset of ten records (§8's example). -/
def sampleRecords : List Record :=
  (List.range 10).map (fun n => { id := n, payload := "p" })

/-- A sample environment: ten records, batch size 4, embedding always
succeeds, upsert always succeeds. -/
def sampleEnv : PipelineEnv :=
  { records := sampleRecords, batchSize := 4,
    embed := fun r => some [Int.ofNat r.id], upsertOk := fun _ => true }

/-- A sample environment whose upsert fails (after retries) at batch
index 2 and whose embedding fails on the record with id 2. -/
def failEnv : PipelineEnv :=
  { records := sampleRecords, batchSize := 4,
    embed := fun r => if r.id = 2 then none else some [Int.ofNat r.id],
    upsertOk := fun j => j != 2 }

/-- A sample display payload for the rendering witness. -/
def samplePayload : ProductPayload :=
  { name := "shirt", images := ["img1", "img2"],
    current_price := "19", currency := "USD", link := "http://x/7" }

/-- A sample search point for the rendering witness. -/
def samplePoint : SearchPoint :=
  { id := 7, payload := samplePayload }

/-- A sample search response with one point. -/
def sampleResponse : SearchResponse := { points := [samplePoint] }

/-! ### Batcher lemmas -/

/-- The fuel-indexed Batcher on the empty sequence. -/
theorem batchesGo_nil {α : Type} (B fuel : Nat) : batchesGo B fuel ([] : List α) = [] := by
  cases fuel <;> rfl

/-- With enough fuel and a positive batch size, the concatenation of the
groups is the original sequence. -/
theorem batchesGo_flatten {α : Type} (B : Nat) (hB : 0 < B) :
    ∀ (fuel : Nat) (l : List α), l.length ≤ fuel → (batchesGo B fuel l).flatten = l := by
  intro fuel
  induction fuel with
  | zero =>
    intro l hl
    have : l = [] := List.eq_nil_of_length_eq_zero (Nat.le_zero.mp hl)
    subst this
    rfl
  | succ n ih =>
    intro l hl
    cases l with
    | nil => rfl
    | cons a l =>
      have hd : ((a :: l).drop B).length ≤ n := by
        rw [List.length_drop]
        simp only [List.length_cons] at hl ⊢
        omega
      simp only [batchesGo, List.flatten_cons, ih _ hd, List.take_append_drop]

/-- With enough fuel and a positive batch size, the number of groups is
`ceil (length / B)` written as `(length + B - 1) / B`. -/
theorem batchesGo_length {α : Type} (B : Nat) (hB : 0 < B) :
    ∀ (fuel : Nat) (l : List α), l.length ≤ fuel →
      (batchesGo B fuel l).length = (l.length + B - 1) / B := by
  intro fuel
  induction fuel with
  | zero =>
    intro l hl
    have : l = [] := List.eq_nil_of_length_eq_zero (Nat.le_zero.mp hl)
    subst this
    simp only [batchesGo, List.length_nil, Nat.zero_add]
    exact (Nat.div_eq_of_lt (by omega)).symm
  | succ n ih =>
    intro l hl
    cases l with
    | nil =>
      simp only [batchesGo, List.length_nil, Nat.zero_add]
      exact (Nat.div_eq_of_lt (by omega)).symm
    | cons a l =>
      have hd : ((a :: l).drop B).length ≤ n := by
        rw [List.length_drop]
        simp only [List.length_cons] at hl ⊢
        omega
      have hrec := ih _ hd
      rw [List.length_drop] at hrec
      simp only [batchesGo, List.length_cons] at hrec ⊢
      have hR : l.length + 1 + B - 1 = l.length + B := by omega
      rw [hrec, hR, Nat.add_div_right _ hB]
      by_cases hBle : B ≤ l.length + 1
      · have h1 : l.length + 1 - B + B - 1 = l.length := by omega
        rw [h1]
      · have h1 : l.length + 1 - B = 0 := by omega
        have h2 : l.length / B = 0 := Nat.div_eq_of_lt (by omega)
        rw [h1, h2]
        simp only [Nat.zero_add]
        rw [Nat.div_eq_of_lt (by omega)]

/-- Every group the Batcher produces has at most `B` records. -/
theorem batchesGo_mem_length_le {α : Type} (B : Nat) :
    ∀ (fuel : Nat) (l : List α), ∀ b ∈ batchesGo B fuel l, b.length ≤ B := by
  intro fuel
  induction fuel with
  | zero =>
    intro l b hb
    cases l <;> simp only [batchesGo, List.not_mem_nil] at hb
  | succ n ih =>
    intro l b hb
    cases l with
    | nil => simp only [batchesGo, List.not_mem_nil] at hb
    | cons a l =>
      simp only [batchesGo, List.mem_cons] at hb
      rcases hb with h | h
      · subst h
        exact List.length_take_le _ _
      · exact ih _ _ h

/-- Every group except possibly the last has exactly `B` records. -/
theorem batchesGo_getD_length {α : Type} (B : Nat) (hB : 0 < B) :
    ∀ (fuel : Nat) (l : List α), l.length ≤ fuel → ∀ i,
      i + 1 < (batchesGo B fuel l).length → ((batchesGo B fuel l).getD i []).length = B := by
  intro fuel
  induction fuel with
  | zero =>
    intro l hl i hi
    have : l = [] := List.eq_nil_of_length_eq_zero (Nat.le_zero.mp hl)
    subst this
    simp only [batchesGo, List.length_nil] at hi
    omega
  | succ n ih =>
    intro l hl i hi
    cases l with
    | nil => simp only [batchesGo, List.length_nil] at hi; omega
    | cons a l =>
      have hd : ((a :: l).drop B).length ≤ n := by
        rw [List.length_drop]
        simp only [List.length_cons] at hl ⊢
        omega
      cases i with
      | zero =>
        simp only [batchesGo, List.length_cons] at hi
        have hrest : batchesGo B n ((a :: l).drop B) ≠ [] := by
          intro hnil
          rw [hnil] at hi
          simp at hi
        have hdrop : (a :: l).drop B ≠ [] := by
          intro hnil
          rw [hnil, batchesGo_nil] at hrest
          exact hrest rfl
        have hlen : B < (a :: l).length := by
          by_contra hc
          exact hdrop (List.drop_eq_nil_of_le (by omega))
        simp only [batchesGo, List.getD_cons_zero]
        rw [List.length_take]
        omega
      | succ i =>
        simp only [batchesGo, List.length_cons] at hi
        have := ih _ hd i (by omega)
        simpa only [batchesGo, List.getD_cons_succ] using this

/-- Group `i` is exactly the slice of `B` records starting at offset
`i * B`. -/
theorem batchesGo_getElem? {α : Type} (B : Nat) (hB : 0 < B) :
    ∀ (fuel : Nat) (l : List α), l.length ≤ fuel → ∀ i,
      i < (batchesGo B fuel l).length →
      (batchesGo B fuel l)[i]? = some ((l.drop (i * B)).take B) := by
  intro fuel
  induction fuel with
  | zero =>
    intro l hl i hi
    have : l = [] := List.eq_nil_of_length_eq_zero (Nat.le_zero.mp hl)
    subst this
    simp only [batchesGo, List.length_nil] at hi
    omega
  | succ n ih =>
    intro l hl i hi
    cases l with
    | nil => simp only [batchesGo, List.length_nil] at hi; omega
    | cons a l =>
      have hd : ((a :: l).drop B).length ≤ n := by
        rw [List.length_drop]
        simp only [List.length_cons] at hl ⊢
        omega
      cases i with
      | zero =>
        simp only [batchesGo, List.getElem?_cons_zero, Nat.zero_mul, List.drop_zero]
      | succ i =>
        simp only [batchesGo, List.length_cons] at hi
        have hrec := ih _ hd i (by omega)
        rw [List.drop_drop] at hrec
        have harith : B + i * B = (i + 1) * B := by ring
        rw [harith] at hrec
        simpa only [batchesGo, List.getElem?_cons_succ] using hrec

/-! ### Orchestrator lemmas -/

/-- Every batch index the processing loop sends to the Embedding Adapter is
at least the start index. -/
theorem runBatches_embedded_ge (e : Record → Option (List Int)) (u : Nat → Bool) :
    ∀ (bs : List (List Record)) (i : Nat) (cp : Option Nat),
      ∀ j ∈ (runBatches e u bs i cp).embedded, i ≤ j := by
  intro bs
  induction bs with
  | nil => intro i cp j hj; simp only [runBatches, List.not_mem_nil] at hj
  | cons b rest ih =>
    intro i cp j hj
    by_cases h : u i
    · simp only [runBatches, if_pos h, List.mem_cons] at hj
      rcases hj with h0 | h0
      · omega
      · have := ih (i + 1) (some i) j h0
        omega
    · simp only [runBatches, if_neg h, List.mem_cons, List.not_mem_nil, or_false] at hj
      omega

/-- Every batch index the processing loop upserts is at least the start
index. -/
theorem runBatches_upserts_ge (e : Record → Option (List Int)) (u : Nat → Bool) :
    ∀ (bs : List (List Record)) (i : Nat) (cp : Option Nat),
      ∀ j items, (j, items) ∈ (runBatches e u bs i cp).upserts → i ≤ j := by
  intro bs
  induction bs with
  | nil => intro i cp j items hj; simp only [runBatches, List.not_mem_nil] at hj
  | cons b rest ih =>
    intro i cp j items hj
    by_cases h : u i
    · simp only [runBatches, if_pos h, List.mem_cons, Prod.mk.injEq] at hj
      rcases hj with ⟨h0, _⟩ | h0
      · omega
      · have := ih (i + 1) (some i) j items h0
        omega
    · simp only [runBatches, if_neg h, List.mem_cons, List.not_mem_nil, or_false,
        Prod.mk.injEq] at hj
      omega

/-- Every batch index the processing loop commits is at least the start
index. -/
theorem runBatches_commits_ge (e : Record → Option (List Int)) (u : Nat → Bool) :
    ∀ (bs : List (List Record)) (i : Nat) (cp : Option Nat),
      ∀ j ∈ (runBatches e u bs i cp).commits, i ≤ j := by
  intro bs
  induction bs with
  | nil => intro i cp j hj; simp only [runBatches, List.not_mem_nil] at hj
  | cons b rest ih =>
    intro i cp j hj
    by_cases h : u i
    · simp only [runBatches, if_pos h, List.mem_cons] at hj
      rcases hj with h0 | h0
      · omega
      · have := ih (i + 1) (some i) j h0
        omega
    · simp only [runBatches, if_neg h, List.not_mem_nil] at hj

/-- The first batch the processing loop embeds is the start index. -/
theorem runBatches_embedded_head (e : Record → Option (List Int)) (u : Nat → Bool)
    (b : List Record) (rest : List (List Record)) (i : Nat) (cp : Option Nat) :
    (runBatches e u (b :: rest) i cp).embedded.head? = some i := by
  by_cases h : u i <;> simp [runBatches, h]

/-- The commit sequence of the processing loop is strictly increasing. -/
theorem runBatches_commits_chain (e : Record → Option (List Int)) (u : Nat → Bool) :
    ∀ (bs : List (List Record)) (i : Nat) (cp : Option Nat),
      List.Chain' (· < ·) (runBatches e u bs i cp).commits := by
  intro bs
  induction bs with
  | nil => intro i cp; simp [runBatches]
  | cons b rest ih =>
    intro i cp
    by_cases h : u i
    · simp only [runBatches, if_pos h]
      rw [List.chain'_cons']
      refine ⟨?_, ih (i + 1) (some i)⟩
      intro y hy
      have hmem : y ∈ (runBatches e u rest (i + 1) (some i)).commits :=
        List.mem_of_mem_head? hy
      have := runBatches_commits_ge e u rest (i + 1) (some i) y hmem
      omega
    · simp [runBatches, if_neg h]

/-- A batch index is only committed when its upsert succeeded. -/
theorem runBatches_commits_ok (e : Record → Option (List Int)) (u : Nat → Bool) :
    ∀ (bs : List (List Record)) (i : Nat) (cp : Option Nat),
      ∀ j ∈ (runBatches e u bs i cp).commits, u j = true := by
  intro bs
  induction bs with
  | nil => intro i cp j hj; simp only [runBatches, List.not_mem_nil] at hj
  | cons b rest ih =>
    intro i cp j hj
    by_cases h : u i
    · simp only [runBatches, if_pos h, List.mem_cons] at hj
      rcases hj with h0 | h0
      · subst h0; exact h
      · exact ih (i + 1) (some i) j h0
    · simp only [runBatches, if_neg h, List.not_mem_nil] at hj

/-- The final durable checkpoint is either the initial one or a committed
index at or past the start index. -/
theorem runBatches_checkpoint_cases (e : Record → Option (List Int)) (u : Nat → Bool) :
    ∀ (bs : List (List Record)) (i : Nat) (cp : Option Nat),
      (runBatches e u bs i cp).checkpoint = cp ∨
        ∃ m, i ≤ m ∧ (runBatches e u bs i cp).checkpoint = some m := by
  intro bs
  induction bs with
  | nil => intro i cp; left; rfl
  | cons b rest ih =>
    intro i cp
    by_cases h : u i
    · simp only [runBatches, if_pos h]
      rcases ih (i + 1) (some i) with h0 | ⟨m, hm, h0⟩
      · right; exact ⟨i, Nat.le_refl i, h0⟩
      · right; exact ⟨m, by omega, h0⟩
    · left; simp [runBatches, if_neg h]

/-- Every upsert call of the processing loop carries exactly the
successfully embedded remainder of the batch at its index. -/
theorem runBatches_upserts_mem (e : Record → Option (List Int)) (u : Nat → Bool) :
    ∀ (bs : List (List Record)) (i : Nat) (cp : Option Nat),
      ∀ j items, (j, items) ∈ (runBatches e u bs i cp).upserts →
        ∃ b, bs[j - i]? = some b ∧ items = itemsOf e b := by
  intro bs
  induction bs with
  | nil => intro i cp j items hj; simp only [runBatches, List.not_mem_nil] at hj
  | cons b rest ih =>
    intro i cp j items hj
    by_cases h : u i
    · simp only [runBatches, if_pos h, List.mem_cons, Prod.mk.injEq] at hj
      rcases hj with ⟨h0, h1⟩ | h0
      · subst h0
        exact ⟨b, by simp, h1⟩
      · have hge := runBatches_upserts_ge e u rest (i + 1) (some i) j items h0
        rcases ih (i + 1) (some i) j items h0 with ⟨b', hb', hitems⟩
        refine ⟨b', ?_, hitems⟩
        have hsub : j - i = (j - (i + 1)) + 1 := by omega
        rw [hsub, List.getElem?_cons_succ]
        exact hb'
    · simp only [runBatches, if_neg h, List.mem_cons, List.not_mem_nil, or_false,
        Prod.mk.injEq] at hj
      rcases hj with ⟨h0, h1⟩
      subst h0
      exact ⟨b, by simp, h1⟩

/-- When every remaining upsert succeeds, the loop ends `DONE`, commits all
remaining batches in order, and leaves the checkpoint at the last batch
index (or untouched when no batches remain). -/
theorem runBatches_all_ok (e : Record → Option (List Int)) (u : Nat → Bool)
    (hu : ∀ j, u j = true) :
    ∀ (bs : List (List Record)) (i : Nat) (cp : Option Nat),
      (runBatches e u bs i cp).final = Final.DONE ∧
      (runBatches e u bs i cp).commits = List.range' i bs.length ∧
      (runBatches e u bs i cp).checkpoint =
        (if bs.length = 0 then cp else some (i + bs.length - 1)) := by
  intro bs
  induction bs with
  | nil => intro i cp; exact ⟨rfl, rfl, rfl⟩
  | cons b rest ih =>
    intro i cp
    rcases ih (i + 1) (some i) with ⟨hfin, hcom, hcp⟩
    refine ⟨?_, ?_, ?_⟩
    · simp only [runBatches, if_pos (hu i)]
      exact hfin
    · simp only [runBatches, if_pos (hu i), List.length_cons, List.range'_succ]
      rw [hcom]
    · simp only [runBatches, if_pos (hu i), List.length_cons]
      rw [hcp]
      by_cases hr : rest.length = 0
      · rw [if_pos hr, if_neg (by omega)]
        congr 1
        omega
      · rw [if_neg hr, if_neg (by omega)]
        congr 1
        omega

/-- When the first failing upsert among the remaining batches is at index
`f`, the loop ends `FAILED f`, commits exactly the indices before `f`, and
leaves the checkpoint where it stood before batch `f`. -/
theorem runBatches_fail (e : Record → Option (List Int)) (u : Nat → Bool) :
    ∀ (bs : List (List Record)) (i : Nat) (cp : Option Nat) (f : Nat),
      i ≤ f → f < i + bs.length → u f = false →
      (∀ j, i ≤ j → j < f → u j = true) →
      (runBatches e u bs i cp).final = Final.FAILED f ∧
      (runBatches e u bs i cp).commits = List.range' i (f - i) ∧
      (runBatches e u bs i cp).checkpoint = (if f = i then cp else some (f - 1)) := by
  intro bs
  induction bs with
  | nil =>
    intro i cp f h1 h2 _ _
    simp only [List.length_nil] at h2
    omega
  | cons b rest ih =>
    intro i cp f h1 h2 hfail hok
    rcases Nat.eq_or_lt_of_le h1 with heq | hlt
    · subst heq
      have hui : u i = false := hfail
      refine ⟨?_, ?_, ?_⟩
      · simp [runBatches, hui]
      · simp [runBatches, hui]
      · simp [runBatches, hui]
    · have hui : u i = true := hok i (Nat.le_refl i) hlt
      have h2' : f < (i + 1) + rest.length := by
        simp only [List.length_cons] at h2
        omega
      rcases ih (i + 1) (some i) f (by omega) h2' hfail
        (fun j hj1 hj2 => hok j (by omega) hj2) with ⟨hfin, hcom, hcp⟩
      refine ⟨?_, ?_, ?_⟩
      · simp only [runBatches, if_pos hui]
        exact hfin
      · simp only [runBatches, if_pos hui]
        rw [hcom]
        have hstep : f - i = (f - (i + 1)) + 1 := by omega
        rw [hstep, List.range'_succ]
      · simp only [runBatches, if_pos hui]
        rw [hcp]
        by_cases hfi : f = i + 1
        · rw [if_pos hfi, if_neg (by omega)]
          congr 1
          omega
        · rw [if_neg hfi, if_neg (by omega)]

/-! ### Claim theorems -/

/-- C2: Batcher partition correctness — for every dataset and batch size
`B > 0`, the Batcher produces exactly `ceil (N / B)` batches, whose
concatenation is the original sequence with no gaps, duplicates or
reordering, each batch of size `B` except possibly a shorter final one, and
batch `i` (by position, indices 0, 1, 2, …) being the slice starting at
record offset `i * B`. -/
theorem batcher_partition {α : Type} (B : Nat) (hB : 0 < B) (l : List α) :
    (batches B l).length = (l.length + B - 1) / B ∧
    (batches B l).flatten = l ∧
    (∀ i, i + 1 < (batches B l).length → ((batches B l).getD i []).length = B) ∧
    (∀ b ∈ batches B l, b.length ≤ B) ∧
    (∀ i, i < (batches B l).length →
      (batches B l)[i]? = some ((l.drop (i * B)).take B)) :=
  ⟨batchesGo_length B hB l.length l (Nat.le_refl _),
   batchesGo_flatten B hB l.length l (Nat.le_refl _),
   fun i hi => batchesGo_getD_length B hB l.length l (Nat.le_refl _) i hi,
   fun b hb => batchesGo_mem_length_le B l.length l b hb,
   fun i hi => batchesGo_getElem? B hB l.length l (Nat.le_refl _) i hi⟩

/-- Witness for C2 at the spec's §8 example: ten records, batch size 4. -/
theorem batcher_partition_witness :
    0 < 4 ∧
    ((batches 4 (List.range 10)).length = ((List.range 10).length + 4 - 1) / 4 ∧
     (batches 4 (List.range 10)).flatten = List.range 10 ∧
     (∀ i, i + 1 < (batches 4 (List.range 10)).length →
        ((batches 4 (List.range 10)).getD i []).length = 4) ∧
     (∀ b ∈ batches 4 (List.range 10), b.length ≤ 4) ∧
     (∀ i, i < (batches 4 (List.range 10)).length →
        (batches 4 (List.range 10))[i]? = some (((List.range 10).drop (i * 4)).take 4))) :=
  ⟨by decide, batcher_partition 4 (by decide) (List.range 10)⟩

/-- C1: Resume correctness — a restart after committing batch `k` loads the
checkpoint, sets `start_index = k + 1`, every batch the restarted run embeds
or upserts has index at least `k + 1` (so no record of batches `0..k` is
re-embedded or re-upserted), and when batch `k + 1` exists it is the first
batch processed. -/
theorem resume_correctness (env : PipelineEnv) (k : Nat) :
    startIndex (some k) = k + 1 ∧
    (∀ j ∈ (run env (some k)).embedded, k + 1 ≤ j) ∧
    (∀ j items, (j, items) ∈ (run env (some k)).upserts → k + 1 ≤ j) ∧
    (k + 1 < (envBatches env).length →
      (run env (some k)).embedded.head? = some (k + 1)) := by
  simp only [run, startIndex]
  refine ⟨trivial, ?_, ?_, ?_⟩
  · intro j hj
    exact runBatches_embedded_ge env.embed env.upsertOk _ (k + 1) (some k) j hj
  · intro j items hj
    exact runBatches_upserts_ge env.embed env.upsertOk _ (k + 1) (some k) j items hj
  · intro hk
    have hdrop := List.drop_eq_getElem_cons (l := envBatches env) hk
    rw [hdrop]
    exact runBatches_embedded_head _ _ _ _ _ _

/-- Witness for C1: restart of the sample environment from checkpoint 1. -/
theorem resume_correctness_witness :
    startIndex (some 1) = 1 + 1 ∧
    (∀ j ∈ (run sampleEnv (some 1)).embedded, 1 + 1 ≤ j) ∧
    (∀ j items, (j, items) ∈ (run sampleEnv (some 1)).upserts → 1 + 1 ≤ j) ∧
    (1 + 1 < (envBatches sampleEnv).length →
      (run sampleEnv (some 1)).embedded.head? = some (1 + 1)) :=
  resume_correctness sampleEnv 1

/-- C3: Checkpoint monotonicity — in every execution the commit calls carry
strictly increasing batch indices, every committed index is strictly greater
than the loaded checkpoint value, and the durable
`last_committed_batch_index` never decreases across the run. -/
theorem checkpoint_monotonic (env : PipelineEnv) (cp : Option Nat) :
    List.Chain' (· < ·) (run env cp).commits ∧
    (∀ k, cp = some k → ∀ j ∈ (run env cp).commits, k < j) ∧
    (∀ k, cp = some k → ∃ m, (run env cp).checkpoint = some m ∧ k ≤ m) := by
  simp only [run]
  refine ⟨runBatches_commits_chain _ _ _ _ _, ?_, ?_⟩
  · intro k hk j hj
    subst hk
    have := runBatches_commits_ge env.embed env.upsertOk _ (startIndex (some k)) (some k) j hj
    simp only [startIndex] at this
    omega
  · intro k hk
    subst hk
    rcases runBatches_checkpoint_cases env.embed env.upsertOk
        ((envBatches env).drop (startIndex (some k))) (startIndex (some k)) (some k) with
      h | ⟨m, hm, h⟩
    · exact ⟨k, h, Nat.le_refl k⟩
    · refine ⟨m, h, ?_⟩
      simp only [startIndex] at hm
      omega

/-- Witness for C3: the sample environment started from checkpoint 0. -/
theorem checkpoint_monotonic_witness :
    List.Chain' (· < ·) (run sampleEnv (some 0)).commits ∧
    (∀ k, (some 0 : Option Nat) = some k → ∀ j ∈ (run sampleEnv (some 0)).commits, k < j) ∧
    (∀ k, (some 0 : Option Nat) = some k →
      ∃ m, (run sampleEnv (some 0)).checkpoint = some m ∧ k ≤ m) :=
  checkpoint_monotonic sampleEnv (some 0)

/-- C4: Rerun idempotence — after a completed run, a second run against the
unchanged dataset and checkpoint performs zero upserts, zero embeddings and
zero commits and ends `DONE` immediately, the checkpoint already holding the
final batch index. -/
theorem rerun_idempotent (env : PipelineEnv) (h : ∀ i, env.upsertOk i = true) :
    (run env ((run env none).checkpoint)).upserts = [] ∧
    (run env ((run env none).checkpoint)).embedded = [] ∧
    (run env ((run env none).checkpoint)).commits = [] ∧
    (run env ((run env none).checkpoint)).final = Final.DONE ∧
    (0 < (envBatches env).length →
      (run env none).checkpoint = some ((envBatches env).length - 1)) := by
  have hcp := (runBatches_all_ok env.embed env.upsertOk h
      ((envBatches env).drop (startIndex none)) (startIndex none) none).2.2
  simp only [startIndex, List.drop_zero] at hcp
  have hrun1 : (run env none).checkpoint =
      (if (envBatches env).length = 0 then none
       else some ((envBatches env).length - 1)) := by
    simp only [run, startIndex, List.drop_zero]
    rw [hcp]
    by_cases hlen : (envBatches env).length = 0
    · rw [if_pos hlen, if_pos hlen]
    · rw [if_neg hlen, if_neg hlen]
      congr 1
      omega
  rw [hrun1]
  by_cases hlen : (envBatches env).length = 0
  · rw [if_pos hlen]
    have hnil : envBatches env = [] := List.eq_nil_of_length_eq_zero hlen
    refine ⟨?_, ?_, ?_, ?_, fun h0 => absurd hlen (by omega)⟩ <;>
      simp [run, startIndex, hnil, runBatches]
  · rw [if_neg hlen]
    have hdrop : (envBatches env).drop ((envBatches env).length - 1 + 1) = [] :=
      List.drop_eq_nil_of_le (by omega)
    refine ⟨?_, ?_, ?_, ?_, fun _ => rfl⟩ <;>
      simp [run, startIndex, hdrop, runBatches]

/-- Witness for C4: the sample environment, whose upserts all succeed. -/
theorem rerun_idempotent_witness :
    (∀ i, sampleEnv.upsertOk i = true) ∧
    ((run sampleEnv ((run sampleEnv none).checkpoint)).upserts = [] ∧
     (run sampleEnv ((run sampleEnv none).checkpoint)).embedded = [] ∧
     (run sampleEnv ((run sampleEnv none).checkpoint)).commits = [] ∧
     (run sampleEnv ((run sampleEnv none).checkpoint)).final = Final.DONE ∧
     (0 < (envBatches sampleEnv).length →
       (run sampleEnv none).checkpoint = some ((envBatches sampleEnv).length - 1))) :=
  ⟨fun _ => rfl, rerun_idempotent sampleEnv (fun _ => rfl)⟩

/-- C5: Error propagation — with `f` the first batch whose upsert fails
(after retry exhaustion) in the processed range: every upsert carries
exactly the embedded remainder of its batch (record-level embedding
failures are dropped, never aborting the batch), indices are committed only
after a successful upsert and at most once each, the batches before `f` all
commit, the job ends `FAILED f`, and the checkpoint is left exactly as it
was before batch `f`. -/
theorem error_propagation (env : PipelineEnv) (cp : Option Nat) (f : Nat)
    (hs : startIndex cp ≤ f) (hf : f < (envBatches env).length)
    (hfail : env.upsertOk f = false)
    (hok : ∀ j, startIndex cp ≤ j → j < f → env.upsertOk j = true) :
    (∀ j items, (j, items) ∈ (run env cp).upserts →
      ∃ b, (envBatches env)[j]? = some b ∧ items = itemsOf env.embed b) ∧
    (∀ j ∈ (run env cp).commits, env.upsertOk j = true) ∧
    (run env cp).commits = List.range' (startIndex cp) (f - startIndex cp) ∧
    (run env cp).commits.Nodup ∧
    (run env cp).final = Final.FAILED f ∧
    (run env cp).checkpoint = (if f = startIndex cp then cp else some (f - 1)) := by
  have hlen : ((envBatches env).drop (startIndex cp)).length
      = (envBatches env).length - startIndex cp := List.length_drop _ _
  obtain ⟨hfin, hcom, hcp⟩ := runBatches_fail env.embed env.upsertOk
    ((envBatches env).drop (startIndex cp)) (startIndex cp) cp f hs
    (by rw [hlen]; omega) hfail hok
  simp only [run]
  refine ⟨?_, ?_, hcom, ?_, hfin, hcp⟩
  · intro j items hj
    have hge := runBatches_upserts_ge env.embed env.upsertOk _ _ _ j items hj
    rcases runBatches_upserts_mem env.embed env.upsertOk _ _ _ j items hj with
      ⟨b, hb, hit⟩
    refine ⟨b, ?_, hit⟩
    rw [List.getElem?_drop] at hb
    rwa [show startIndex cp + (j - startIndex cp) = j by omega] at hb
  · exact runBatches_commits_ok env.embed env.upsertOk _ _ _
  · rw [hcom]
    exact List.nodup_range' _ _

/-- Witness for C5: the failing sample environment, first run, failing
batch 2. -/
theorem error_propagation_witness :
    (startIndex none ≤ 2 ∧ 2 < (envBatches failEnv).length ∧
     failEnv.upsertOk 2 = false) ∧
    ((∀ j items, (j, items) ∈ (run failEnv none).upserts →
       ∃ b, (envBatches failEnv)[j]? = some b ∧ items = itemsOf failEnv.embed b) ∧
     (∀ j ∈ (run failEnv none).commits, failEnv.upsertOk j = true) ∧
     (run failEnv none).commits = List.range' (startIndex none) (2 - startIndex none) ∧
     (run failEnv none).commits.Nodup ∧
     (run failEnv none).final = Final.FAILED 2 ∧
     (run failEnv none).checkpoint = (if 2 = startIndex none then none else some (2 - 1))) :=
  ⟨⟨by decide, by decide, by decide⟩,
   error_propagation failEnv none 2 (by decide) (by decide) (by decide)
     (fun j h1 hj => by simp [failEnv]; omega)⟩

/-- The filter string built by App.js `handleFilterChange` is never the
empty string: it always starts with `from=`. -/
theorem handleFilterChange_ne_empty (f t c : String) : handleFilterChange f t c ≠ "" := by
  intro h
  have h2 := congrArg String.length h
  simp only [handleFilterChange] at h2
  rw [String.length_append, String.length_append, String.length_append,
    String.length_append, String.length_append] at h2
  have h3 : 5 + f.length + 4 + t.length + 10 + c.length = 0 := h2
  omega

/-- C6: Search query surface — the request URL carries the free-text query,
and optionally the numeric price-range parameters `from` and `to` and a
`category` parameter; a search performed before any filter interaction
carries the query alone. -/
theorem search_query_surface :
    (∀ q, buildSearchUrl q (appFilters []) = searchUrlBase ++ q) ∧
    (∀ q f t c, buildSearchUrl q (handleFilterChange f t c) =
      searchUrlBase ++ q ++ "&from=" ++ f ++ "&to=" ++ t ++ "&category=" ++ c) := by
  have hamp : ("&" : String) ++ "from=" = "&from=" := rfl
  have hmerge : ∀ s : String, s ++ "&" ++ "from=" = s ++ "&from=" := fun s => by
    rw [String.append_assoc, hamp]
  constructor
  · intro q
    rw [appFilters, buildSearchUrl, if_pos rfl, String.append_empty]
  · intro q f t c
    rw [buildSearchUrl, if_neg (handleFilterChange_ne_empty f t c), handleFilterChange]
    simp only [← String.append_assoc]
    rw [hmerge]

/-- Witness for C6: a query with the initial filter control values. -/
theorem search_query_surface_witness :
    buildSearchUrl "shoes" (handleFilterChange "0" "1000" "") =
      searchUrlBase ++ "shoes" ++ "&from=" ++ "0" ++ "&to=" ++ "1000" ++
        "&category=" ++ "" :=
  search_query_surface.2 "shoes" "0" "1000" ""

/-- C7: Search result rendering — the rendered items are exactly the
response's points in their returned order, each card keyed by the point's
id, linking to the payload's link and displaying the payload's name,
images, price and currency. -/
theorem search_result_rendering (d : SearchResponse) :
    (handleSearch (FetchResult.success d)).products = d.points ∧
    renderProductList (handleSearch (FetchResult.success d)).products =
      d.points.map renderProduct ∧
    (∀ p ∈ d.points, renderProduct p =
      { key := p.id, href := p.payload.link, title := p.payload.name,
        images := p.payload.images,
        priceText := p.payload.current_price ++ " " ++ p.payload.currency }) :=
  ⟨rfl, rfl, fun _ _ => rfl⟩

/-- Witness for C7: the one-point sample response. -/
theorem search_result_rendering_witness :
    (handleSearch (FetchResult.success sampleResponse)).products = sampleResponse.points ∧
    renderProductList (handleSearch (FetchResult.success sampleResponse)).products =
      sampleResponse.points.map renderProduct ∧
    (∀ p ∈ sampleResponse.points, renderProduct p =
      { key := p.id, href := p.payload.link, title := p.payload.name,
        images := p.payload.images,
        priceText := p.payload.current_price ++ " " ++ p.payload.currency }) :=
  search_result_rendering sampleResponse

/-- C8: Search failure handling — for every fetch outcome the loading flag
is set to true at the start and back to false at the end, and whenever the
response is not ok or the fetch throws, the displayed product list is set
to the empty array. -/
theorem search_failure_handling (r : FetchResult) :
    (handleSearch r).loadingDuring = true ∧
    (handleSearch r).loadingAfter = false ∧
    ((r = FetchResult.httpNotOk ∨ r = FetchResult.fetchError) →
      (handleSearch r).products = []) := by
  cases r with
  | success d =>
    exact ⟨rfl, rfl, fun h => by rcases h with h | h <;> exact FetchResult.noConfusion h⟩
  | httpNotOk => exact ⟨rfl, rfl, fun _ => rfl⟩
  | fetchError => exact ⟨rfl, rfl, fun _ => rfl⟩

/-- Witness for C8: a not-ok HTTP response clears the product list. -/
theorem search_failure_handling_witness :
    (handleSearch FetchResult.httpNotOk).products = [] :=
  (search_failure_handling FetchResult.httpNotOk).2.2 (Or.inl rfl)

/-- C9: Unencoded query interpolation — the request URL is the literal
prefix followed by the raw query text (then `&` and the filter string when
non-empty); no URL-encoding is applied, so a query containing `&` or `=`
changes the parameter structure: the query `shoes&to=5` with no filters
yields the very same URL as the query `shoes` with filter `to=5`, and
parses as two parameters instead of one. -/
theorem unencoded_query_interpolation :
    (∀ q, buildSearchUrl q "" = searchUrlBase ++ q) ∧
    (∀ q fs, fs ≠ "" → buildSearchUrl q fs = searchUrlBase ++ q ++ "&" ++ fs) ∧
    buildSearchUrl "shoes&to=5" "" = buildSearchUrl "shoes" "to=5" ∧
    queryParams "query=shoes&to=5" = [["query", "shoes"], ["to", "5"]] ∧
    queryParams "query=shoes" = [["query", "shoes"]] := by
  refine ⟨?_, ?_, by decide, by decide, by decide⟩
  · intro q
    rw [buildSearchUrl, if_pos rfl, String.append_empty]
  · intro q fs h
    rw [buildSearchUrl, if_neg h, ← String.append_assoc]

/-- Witness for C9: the explicit filter string `to=5`. -/
theorem unencoded_query_interpolation_witness :
    buildSearchUrl "shoes" "to=5" = searchUrlBase ++ "shoes" ++ "&" ++ "to=5" :=
  unencoded_query_interpolation.2.1 "shoes" "to=5" (by decide)

/-- C10: Filter-string shape invariant — before any filter interaction the
filter string is empty, the controls start at `from = 0`, `to = 1000`,
category All (whose option value is the empty string), and after every
filter interaction the string has exactly the shape
`from=<f>&to=<t>&category=<c>` with all three keys present, the values
being the current control values. -/
theorem filter_string_shape :
    appFilters [] = "" ∧
    initialFilterMenuState.fromPrice = "0" ∧
    initialFilterMenuState.toPrice = "1000" ∧
    initialFilterMenuState.category = "" ∧
    ("All", "") ∈ categoryOptions ∧
    (∀ evs, evs ≠ [] → appFilters evs =
      "from=" ++ (filterMenuState evs).fromPrice ++ "&to=" ++
        (filterMenuState evs).toPrice ++ "&category=" ++
        (filterMenuState evs).category) := by
  refine ⟨rfl, rfl, rfl, rfl, by decide, ?_⟩
  intro evs h
  cases evs with
  | nil => exact absurd rfl h
  | cons e es => rfl

/-- Witness for C10: a single edit of the `from` price to 3. -/
theorem filter_string_shape_witness :
    appFilters [FilterEvent.setFrom "3"] =
      "from=" ++ (filterMenuState [FilterEvent.setFrom "3"]).fromPrice ++ "&to=" ++
        (filterMenuState [FilterEvent.setFrom "3"]).toPrice ++ "&category=" ++
        (filterMenuState [FilterEvent.setFrom "3"]).category :=
  filter_string_shape.2.2.2.2.2 [FilterEvent.setFrom "3"] (by decide)

end DoriMori
